import Mathlib

/-!
Verification of `sourcesetmaker.py` (sourceset-webP-maker).

The script batch-converts a folder of images to WebP at several target
widths.  This file shallowly embeds the script's data model and
operations:

* Python's binary64 floating-point arithmetic (used by `resize_image`,
  which computes `int(image.height * (target_width / image.width))` with
  float true division and multiplication) is modelled exactly by
  `round64`, round-to-nearest-even at 53 significant bits with unbounded
  exponent; this is faithful to IEEE-754 binary64 for all values far from
  the overflow/subnormal thresholds, in particular for every value that
  arises from image dimensions below 2^31.
* `resize_image`, `get_image_files`, `convert_to_webp` and the body of
  `main` are translated line by line.
* Pillow (PIL) is external to the repository; the PIL calls the script
  makes are modelled from Pillow's documented semantics, each at the
  point of use (see the doc comments on `pyImageOpen`, `pasteFull`,
  `muldiv255`, ...).
-/

set_option maxRecDepth 8000

namespace SrcSet

/-- Fuel-bounded bit length of a natural number: `bitLen f n` is the number
of binary digits of `n`, provided `n < 2 ^ f`. -/
def bitLen : ℕ → ℕ → ℕ
  | 0, _ => 0
  | f + 1, n => if n = 0 then 0 else bitLen f (n / 2) + 1

/-- Bit length of the integer part of `q * 2 ^ 100` for a positive rational
`q`: this determines `⌊log₂ q⌋ = r64L q - 101` whenever
`2 ^ (-100) ≤ q < 2 ^ 190`, which covers every value the script produces from
image dimensions below `2 ^ 31`.  All arithmetic is on `ℕ` so that the kernel
can evaluate it. -/
def r64L (q : ℚ) : ℕ := bitLen 300 (q.num.toNat * 2 ^ 100 / q.den)

/-- Binary64 exponent of a positive rational `q`: the unique `e` with
`2 ^ 52 ≤ q * 2 ^ (-e) < 2 ^ 53` (for `q` in the valid range). -/
def r64e (q : ℚ) : ℤ := (r64L q : ℤ) - 153

/-- Numerator of the scaled value `q * 2 ^ (-r64e q)` as a fraction of
naturals (note that one of `(r64e q).toNat` and `(-r64e q).toNat` is `0`). -/
def r64sn (q : ℚ) : ℕ := q.num.toNat * 2 ^ (-r64e q).toNat

/-- Denominator of the scaled value `q * 2 ^ (-r64e q)` as a fraction of
naturals. -/
def r64sd (q : ℚ) : ℕ := q.den * 2 ^ (r64e q).toNat

/-- Significand after round-to-nearest, ties to even: the scaled value
`r64sn q / r64sd q` lies in `[2 ^ 52, 2 ^ 53)` and is rounded to the nearest
integer, with ties going to the even neighbour. -/
def r64m (q : ℚ) : ℕ :=
  let sn := r64sn q
  let sd := r64sd q
  let n := sn / sd
  if 2 * (sn % sd) < sd then n
  else if sd < 2 * (sn % sd) then n + 1
  else if n % 2 = 0 then n else n + 1

/-- Round a positive rational to the nearest (ties to even) number of the
form `m * 2 ^ e` with `2 ^ 52 ≤ m < 2 ^ 53`: IEEE-754 binary64
round-to-nearest-even, with the exponent range unbounded (no overflow and no
subnormals; exact for all magnitudes occurring in this development). -/
def round64pos (q : ℚ) : ℚ :=
  mkRat ((r64m q * 2 ^ (r64e q).toNat : ℕ) : ℤ) (2 ^ (-r64e q).toNat)

/-- IEEE-754 binary64 rounding of a rational (sign-symmetric, as in the
standard). -/
def round64 (q : ℚ) : ℚ :=
  if 0 < q then round64pos q else if q < 0 then -round64pos (-q) else 0

/-- Python `int(x)` on a float: truncation toward zero. -/
def pytrunc (q : ℚ) : ℤ := if q < 0 then -⌊-q⌋ else ⌊q⌋

/-- Python `float(n)` (also the implicit int-to-float conversion inside a
mixed int/float arithmetic operation): correctly rounded. -/
def pyfloat (n : ℕ) : ℚ := round64 (n : ℚ)

/-- Product of two rationals, computed on numerators and denominators so that
the kernel can evaluate it; propositionally equal to `q * r` (`qmul_eq`). -/
def qmul (q r : ℚ) : ℚ := mkRat (q.num * r.num) (q.den * r.den)

/-- Python `a / b` on two non-negative ints: correctly rounded binary64 true
division of the exact quotient (CPython rounds the exact quotient even for
big ints).  The script only divides by an image width, which PIL guarantees
positive. -/
def pydiv (a b : ℕ) : ℚ := round64 (mkRat (a : ℤ) b)

/-- Python `n * x` with `n` an int and `x` a float: convert `n` to float,
then binary64 multiplication of the exact product. -/
def pymulIntFloat (n : ℕ) (x : ℚ) : ℚ := round64 (qmul (pyfloat n) x)

/-- `resize_image` (sourcesetmaker.py lines 33-40), height computation:
`ratio = target_width / image.width` (binary64 true division),
`new_height = int(image.height * ratio)` (int-to-float promotion, binary64
multiplication, truncation toward zero). -/
def pyNewHeight (hgt wid tw : ℕ) : ℤ := pytrunc (pymulIntFloat hgt (pydiv tw wid))

/-- `resize_image` (sourcesetmaker.py lines 33-40) at the level of image
dimensions `(width, height)`: if `image.width <= target_width` the image is
returned unchanged, otherwise `image.resize((target_width, new_height))` is
called. -/
def resize_dims (wid hgt : ℕ) (tw : ℕ) : ℕ × ℕ :=
  if wid ≤ tw then (wid, hgt) else (tw, (pyNewHeight hgt wid tw).toNat)

/-! ### Pixel-level model of the colour-mode normalisation in `convert_to_webp`

The script's encode step (lines 44-57) normalises the colour mode of an
opened image before saving: palette images are expanded, images with an
alpha channel are pasted onto a white background, any other non-RGB mode is
converted to RGB.  The PIL primitives used there (`Image.new`, `convert`,
`split`, `paste`) are modelled below from Pillow's documented semantics and
its `Paste.c` blend formula. -/

/-- PIL colour modes that can reach `convert_to_webp`'s branches (`L` stands
for the remaining single-band non-RGB modes). -/
inductive PMode
  | RGB
  | RGBA
  | LA
  | P
  | L
  deriving DecidableEq, Repr

/-- A PIL image at pixel level: mode, dimensions, per-pixel band values
(band conventions as in PIL: RGB = `[r,g,b]`, RGBA = `[r,g,b,a]`,
LA = `[l,a]`, P = `[palette index]`, L = `[l]`), and, for palette images,
the palette as a map from index to RGBA band values. -/
structure PImg where
  mode : PMode
  width : ℕ
  height : ℕ
  px : ℕ → ℕ → List ℕ
  palette : ℕ → List ℕ

/-- Band values of a pixel after conversion to RGB, as PIL's `convert`/
`paste` do it: RGBA drops alpha, LA and L replicate luminance (alpha of an
LA image is discarded), P looks up the palette. -/
def rgbBands (img : PImg) (x y : ℕ) : List ℕ :=
  match img.mode with
  | .RGB => img.px x y
  | .RGBA => (img.px x y).take 3
  | .LA => [(img.px x y).headD 0, (img.px x y).headD 0, (img.px x y).headD 0]
  | .L => [(img.px x y).headD 0, (img.px x y).headD 0, (img.px x y).headD 0]
  | .P => (img.palette ((img.px x y).headD 0)).take 3

/-- Pillow's `MULDIV255` macro: exact rounding of `a * b / 255` computed as
`t = a * b + 128; ((t >> 8) + t) >> 8`. -/
def muldiv255 (a b : ℕ) : ℕ := ((a * b + 128) / 256 + (a * b + 128)) / 256

/-- Pillow's `BLEND` macro from `Paste.c` for an `L`-mode mask: the output
band is `MULDIV255(bg, 255 - m) + MULDIV255(src, m)`. -/
def blendBand (m bgv srcv : ℕ) : ℕ := muldiv255 bgv (255 - m) + muldiv255 srcv m

/-- `Image.new('RGB', size, (255, 255, 255))`: a solid white RGB image. -/
def pilNewRGBWhite (w h : ℕ) : PImg :=
  ⟨.RGB, w, h, fun _ _ => [255, 255, 255], fun _ => [0, 0, 0, 0]⟩

/-- `img.convert('RGBA')` on a palette image: per-pixel palette lookup
(Pillow's palette carries the transparency information, so the result's
alpha comes from the palette entry). -/
def convertPtoRGBA (img : PImg) : PImg :=
  { img with mode := .RGBA, px := fun x y => img.palette ((img.px x y).headD 0) }

/-- `img.split()[-1]`: the last band of an image as a single-band image
(for RGBA this is the alpha band). -/
def splitLastBand (img : PImg) : PImg :=
  { img with mode := .L, px := fun x y => [(img.px x y).getLastD 0] }

/-- `bg.paste(src, mask=mask)` over the full frame: with no mask the source
is converted to the background's mode and copied; with an `L`-mode mask each
band is blended with Pillow's `BLEND` formula. -/
def pasteFull (bg src : PImg) (mask : Option PImg) : PImg :=
  match mask with
  | none => { bg with px := fun x y => rgbBands src x y }
  | some mk =>
      { bg with px := fun x y => List.zipWith (fun bgv srcv => blendBand ((mk.px x y).headD 0) bgv srcv) (bg.px x y) (rgbBands src x y) }

/-- `img.convert('RGB')` for the remaining non-RGB modes. -/
def convertToRGB (img : PImg) : PImg :=
  { img with mode := .RGB, px := fun x y => rgbBands img x y }

/-- The colour-mode normalisation of `convert_to_webp`
(sourcesetmaker.py lines 47-55):

    if img.mode in ('RGBA', 'LA', 'P'):
        background = Image.new('RGB', img.size, (255, 255, 255))
        if img.mode == 'P':
            img = img.convert('RGBA')
        background.paste(img, mask=img.split()[-1] if img.mode == 'RGBA' else None)
        img = background
    elif img.mode != 'RGB':
        img = img.convert('RGB') -/
def normalizeForWebp (img : PImg) : PImg :=
  if img.mode = .RGBA ∨ img.mode = .LA ∨ img.mode = .P then
    let background := pilNewRGBWhite img.width img.height
    let img1 := if img.mode = .P then convertPtoRGBA img else img
    let mask := if img1.mode = .RGBA then some (splitLastBand img1) else none
    pasteFull background img1 mask
  else if img.mode ≠ .RGB then convertToRGB img
  else img

/-! ### File enumeration (`get_image_files`, lines 22-31) -/

/-- `SUPPORTED_FORMATS` (line 16).  Python iterates over this set literal in
an unspecified hash-determined order; the list below fixes one order.  No
claim depends on the enumeration order. -/
def SUPPORTED_FORMATS : List String :=
  [".jpg", ".jpeg", ".png", ".webp", ".bmp", ".tiff", ".tif", ".gif"]

/-- `str.upper()` on an ASCII character. -/
def upChar (c : Char) : Char :=
  if 'a' ≤ c ∧ c ≤ 'z' then Char.ofNat (c.toNat - 32) else c

/-- `str.upper()` (the extensions are ASCII). -/
def upStr (s : String) : String := ⟨s.data.map upChar⟩

/-- `str.lower()` on an ASCII character. -/
def downChar (c : Char) : Char :=
  if 'A' ≤ c ∧ c ≤ 'Z' then Char.ofNat (c.toNat + 32) else c

/-- `str.lower()` (used only to state the spec's case-insensitive
predicate). -/
def downStr (s : String) : String := ⟨s.data.map downChar⟩

/-- `folder.glob('*' + ext)` membership for one file name: on a POSIX
(case-sensitive) filesystem the pattern `*<ext>` matches exactly the names
that end in `ext`. -/
def strEndsWith (s t : String) : Bool := t.data.isSuffixOf s.data

/-- The glob loop of `get_image_files` (lines 27-29), generalised over the
projection from a directory entry to its name: for every supported
extension, the entries matching `*<ext>` and then the entries matching the
upper-cased pattern are appended. -/
def gatherImages {α : Type} (nameOf : α → String) : List String → List α → List α
  | [], _ => []
  | e :: es, files =>
      (files.filter (fun f => strEndsWith (nameOf f) e) ++
        files.filter (fun f => strEndsWith (nameOf f) (upStr e))) ++
        gatherImages nameOf es files

/-- `get_image_files` (lines 22-31). -/
def get_image_files {α : Type} (nameOf : α → String) (files : List α) : List α :=
  gatherImages nameOf SUPPORTED_FORMATS files

/-- Modelled from the spec's words, for comparison with the code (C7): a
file is enumerated iff its extension, compared case-insensitively, is in
the supported set. -/
def specCaseFold (name : String) : Bool :=
  SUPPORTED_FORMATS.any (fun e => strEndsWith (downStr name) e)

/-! ### Run-level model of `convert_to_webp` and `main` (lines 42-61, 94-175)

At this level an image is tracked by mode and dimensions; the pixel content
is irrelevant here (the pixel-level normalisation is modelled above). -/

/-- Mode-and-dimension view of a PIL image. -/
structure Img where
  mode : PMode
  width : ℕ
  height : ℕ
  deriving DecidableEq, Repr

/-- A value passed to `convert_to_webp` as its `input_path` parameter.
`main` passes in-memory PIL `Image` objects (lines 141, 145, 149), while
the function itself treats the parameter as a path and calls
`Image.open(input_path)`. -/
inductive PySrc
  | path (name : String)
  | image (im : Img)
  deriving DecidableEq, Repr

/-- Exceptions that can arise inside `convert_to_webp`'s `try:` block. -/
inductive PyErr
  | attrNoRead
  | unidentified
  | saveFailed
  deriving DecidableEq, Repr

/-- `PIL.Image.open`, modelled from Pillow's documented contract: `fp` must
be a path or a binary file object implementing `read`, `seek` and `tell`.
On a path it decodes the file (`fs` maps the paths of the source folder to
their decoded images, `none` for unreadable files).  On a PIL `Image`
object, `open` runs `fp.seek(0)` (which succeeds: the base `Image` class
has a frame-`seek` that accepts frame 0) and then `prefix = fp.read(16)`,
which raises `AttributeError` because `Image` has no `read` method. -/
def pyImageOpen (fs : String → Option Img) : PySrc → Except PyErr Img
  | .path p =>
      match fs p with
      | some im => .ok im
      | none => .error .unidentified
  | .image _ => .error .attrNoRead

/-- The body of `convert_to_webp`'s `try:` block (lines 44-57): open the
input, normalise the colour mode (which changes neither width nor height,
see the pixel-level `normalizeForWebp`), then `img.save(...)`.  `saveOk`
says whether the external `save` call succeeds (codec and disk errors are
external nondeterminism).  An exception is an `Except.error`. -/
def convert_body (fs : String → Option Img) (saveOk : Bool) (inp : PySrc) :
    Except PyErr Img := do
  let im ← pyImageOpen fs inp
  let enc : Img := { im with mode := PMode.RGB }
  if saveOk then pure enc else throw PyErr.saveFailed

/-- `convert_to_webp` (lines 42-61): the whole body is wrapped in
`try ... except Exception`, which prints the error and returns `False`.
The result is `.ok (success flag, encoded image written)`; an uncaught
exception would be `.error` (none ever escapes, see C4). -/
def convert_to_webp (fs : String → Option Img) (saveOk : Bool) (inp : PySrc) :
    Except PyErr (Bool × Option Img) :=
  match convert_body fs saveOk inp with
  | .ok enc => .ok (true, some enc)
  | .error _ => .ok (false, none)

/-- `PurePath.stem`: the name without its final suffix; the suffix starts at
the last dot, provided that dot is neither leading nor trailing. -/
def pyStem (s : String) : String :=
  match ((List.range s.data.length).filter (fun i => s.data.getD i ' ' = '.')).getLast? with
  | some i => if 0 < i ∧ i + 1 < s.data.length then ⟨s.data.take i⟩ else s
  | none => s

/-- Python `dict` insertion (`width_dirs[width] = width_dir`, line 122): an
existing key keeps its position and is re-assigned, a new key is appended;
`dict.items()` iterates in insertion order. -/
def dictInsert {β : Type} (l : List (ℕ × β)) (k : ℕ) (v : β) : List (ℕ × β) :=
  if l.any (fun p => p.1 == k) then l.map (fun p => if p.1 = k then (k, v) else p)
  else l ++ [(k, v)]

/-- First-occurrence deduplication, written with an explicit accumulator of
already-seen elements so that it is structurally recursive. -/
def keepFirst {α : Type} [DecidableEq α] (seen : List α) : List α → List α
  | [] => []
  | x :: xs => if x ∈ seen then keepFirst seen xs else x :: keepFirst (x :: seen) xs

/-- The list with only the first occurrence of every element kept. -/
def dedupFirst {α : Type} [DecidableEq α] (l : List α) : List α := keepFirst [] l

/-- Insertion into a sorted list (for `sorted(args.widths)`). -/
def insertSorted (x : ℕ) : List ℕ → List ℕ
  | [] => [x]
  | y :: ys => if x ≤ y then x :: y :: ys else y :: insertSorted x ys

/-- Python `sorted` on a list of ints (a stable sort; on ints any correct
sort gives the same list). -/
def pySorted (l : List ℕ) : List ℕ := l.foldr insertSorted []

/-- One entry of the source directory: its file name and the result of
`PIL.Image.open` on it (`none` for files PIL cannot decode). -/
structure FileEntry where
  name : String
  img : Option Img
  deriving DecidableEq, Repr

/-- The decodable images of the source folder, as a lookup by path. -/
def fsOf (files : List FileEntry) : String → Option Img := fun p =>
  match files.find? (fun f => f.name == p) with
  | some f => f.img
  | none => none

/-- `resize_image` (lines 33-40) on an in-memory image; PIL's
`Image.resize` preserves the mode. -/
def resize_image (im : Img) (tw : ℕ) : Img :=
  { im with width := (resize_dims im.width im.height tw).1,
            height := (resize_dims im.width im.height tw).2 }

/-- `width_dirs` construction (lines 118-122): directory names are
`str(width)`. -/
def width_dirs (widths : List ℕ) : List (ℕ × String) :=
  widths.foldl (fun d w => dictInsert d w (toString w)) []

/-- The per-image loop body (lines 131-154), for one file: if `Image.open`
on the path raised, the exception is caught at line 152 and the file is
skipped.  Otherwise every width bucket gets a `convert_to_webp` call (on the
resized image when `original_img.width > width`, else on the original), and
then the `originalsize` bucket; the per-image success count comes only from
the original-size call (lines 149-150).  Returns the files written and the
contribution (0 or 1) to `successful_conversions`. -/
def processImage (fs : String → Option Img) (saveOk : String → Bool)
    (wdirs : List (ℕ × String)) (f : FileEntry) : List (String × Img) × ℕ :=
  match f.img with
  | none => ([], 0)
  | some im =>
      let outs := wdirs.foldl (fun acc wd =>
        let outPath := wd.2 ++ "/" ++ pyStem f.name ++ ".webp"
        let inp : PySrc :=
          if wd.1 < im.width then PySrc.image (resize_image im wd.1) else PySrc.image im
        match convert_to_webp fs (saveOk outPath) inp with
        | .ok (_, some enc) => acc ++ [(outPath, enc)]
        | _ => acc) []
      let opath := "originalsize/" ++ pyStem f.name ++ ".webp"
      match convert_to_webp fs (saveOk opath) (PySrc.image im) with
      | .ok (true, some enc) => (outs ++ [(opath, enc)], 1)
      | _ => (outs, 0)

/-- The data written to `sourceset_info.txt` (lines 157-170) that the claims
mention: the `Target widths` / `Directory structure` lines use
`sorted(args.widths)` with duplicates kept; `Images processed` is the number
of enumerated files; `Successful conversions` is the counter. -/
structure ManifestData where
  sortedWidths : List ℕ
  processed : ℕ
  successes : ℕ
  deriving DecidableEq, Repr

/-- Observable outcome of the processing part of `main` (lines 113-175). -/
structure RunOut where
  dirs : List String
  outputs : List (String × Img)
  successes : ℕ
  manifest : ManifestData
  deriving DecidableEq, Repr

/-- Lines 113-175 of `main`: directory creation (`mkdir` with
`exist_ok=True` — creating an existing directory is a no-op, so the set of
directories is the deduplicated request list), the per-image loop, and the
manifest.  `saveOk` gives the outcome of each external `save` call, keyed by
the output path. -/
def runConv (widths : List ℕ) (files : List FileEntry) (saveOk : String → Bool) : RunOut :=
  let wdirs := width_dirs widths
  let per := files.map (processImage (fsOf files) saveOk wdirs)
  { dirs := dedupFirst (widths.map toString ++ ["originalsize"])
    outputs := (per.map Prod.fst).flatten
    successes := (per.map Prod.snd).sum
    manifest :=
      { sortedWidths := pySorted widths
        processed := files.length
        successes := (per.map Prod.snd).sum } }

/-- Outcome of a `main` invocation: either `sys.exit(code)` taken before any
directory or file was created (the constructor records the created
directories and written files at that point, both empty), or a completed
run (exit status 0). -/
inductive MainOutcome
  | exited (code : ℕ) (dirsCreated : List String) (written : List (String × Img))
  | finished (out : RunOut)
  deriving DecidableEq, Repr

/-- `main` (lines 63-175), after argument parsing: validate the source
folder (exists, is a directory), enumerate images, exit 1 on failure —
all before any output path is touched — otherwise run the conversion and
return normally (exit status 0). -/
def main (folderExists folderIsDir : Bool) (listing : List FileEntry)
    (widths : List ℕ) (saveOk : String → Bool) : MainOutcome :=
  if folderExists = false then .exited 1 [] []
  else if folderIsDir = false then .exited 1 [] []
  else
    let image_files := get_image_files FileEntry.name listing
    if image_files.isEmpty then .exited 1 [] []
    else .finished (runConv widths image_files saveOk)

/-! ### Object-identity model of `resize_image` (for C8)

`main` reuses one opened image across all width variants, so whether
`resize_image` mutates its input or returns the same object matters.  PIL
images live on a heap; references are indices into it.  PIL's
`Image.resize` returns a freshly allocated copy and never writes to the
receiver. -/

/-- A heap of PIL image objects. -/
structure PilHeap where
  imgs : List PImg

/-- Dereference (out-of-range reads give a dummy image; theorems restrict to
valid references). -/
def heapGet (h : PilHeap) (r : ℕ) : PImg :=
  h.imgs.getD r ⟨PMode.RGB, 0, 0, fun _ _ => [], fun _ => []⟩

/-- `resize_image` (lines 33-40) with explicit object identity: when
`image.width <= target_width` the function returns its input reference
unchanged (`return image`); otherwise `image.resize(...)` allocates a new
image at the end of the heap and its reference is returned.  `lz` is the
Lanczos resampling kernel of `Image.resize`, kept abstract because no claim
depends on resampled pixel values. -/
def resize_image_heap (lz : PImg → ℕ → ℕ → ℕ → ℕ → List ℕ) (h : PilHeap) (r : ℕ)
    (tw : ℕ) : PilHeap × ℕ :=
  let im := heapGet h r
  if im.width ≤ tw then (h, r)
  else
    let nh := (pyNewHeight im.height im.width tw).toNat
    let res : PImg := ⟨im.mode, tw, nh, lz im tw nh, im.palette⟩
    (⟨h.imgs ++ [res]⟩, h.imgs.length)

/-- The output path of the original-size variant of a file. -/
def origPath (f : FileEntry) : String := ("originalsize/") ++ pyStem f.name ++ (".webp")

/-- Whether the original-size `convert_to_webp` call for a file returned
`True` (lines 148-150). -/
def origOk (fs : String → Option Img) (saveOk : String → Bool) (f : FileEntry) : Bool :=
  match f.img with
  | none => false
  | some im =>
      match convert_to_webp fs (saveOk (origPath f)) (PySrc.image im) with
      | .ok (true, _) => true
      | _ => false

theorem bitLen_zero (f : ℕ) : bitLen f 0 = 0 := by
  cases f <;> simp [bitLen]

theorem bitLen_spec : ∀ f n : ℕ, n ≠ 0 → n < 2 ^ f →
    1 ≤ bitLen f n ∧ 2 ^ (bitLen f n - 1) ≤ n ∧ n < 2 ^ bitLen f n := by
  intro f
  induction f with
  | zero => intro n hn hlt; simp at hlt; omega
  | succ f ih =>
    intro n hn hlt
    have hstep : bitLen (f + 1) n = bitLen f (n / 2) + 1 := by
      simp [bitLen, hn]
    by_cases hd : n / 2 = 0
    · have hn1 : n = 1 := by omega
      subst hn1
      rw [hstep, hd, bitLen_zero]
      norm_num
    · have hpow : (2 : ℕ) ^ (f + 1) = 2 * 2 ^ f := by ring
      have hdlt : n / 2 < 2 ^ f := by omega
      obtain ⟨hL1, hLlo, hLhi⟩ := ih (n / 2) hd hdlt
      rw [hstep]
      set L := bitLen f (n / 2) with hLdef
      have h2L : (2 : ℕ) ^ L = 2 * 2 ^ (L - 1) := by
        have : L - 1 + 1 = L := by omega
        calc (2 : ℕ) ^ L = 2 ^ (L - 1 + 1) := by rw [this]
        _ = 2 * 2 ^ (L - 1) := by ring
      have h2L1 : (2 : ℕ) ^ (L + 1) = 2 * 2 ^ L := by ring
      refine ⟨by omega, ?_, ?_⟩
      · simp only [Nat.add_sub_cancel]
        omega
      · omega

theorem num_toNat_eq (q : ℚ) (hq : 0 < q) : (q.num.toNat : ℚ) = q * q.den := by
  have hnum : 0 < q.num := Rat.num_pos.mpr hq
  have h1 : ((q.num.toNat : ℤ) : ℚ) = (q.num : ℚ) := by
    rw [Int.toNat_of_nonneg hnum.le]
  have hden : (q.den : ℚ) ≠ 0 := by
    exact_mod_cast q.den_nz
  have h2 := Rat.num_div_den q
  rw [div_eq_iff hden] at h2
  calc (q.num.toNat : ℚ) = (q.num : ℚ) := by exact_mod_cast h1
  _ = q * q.den := h2

theorem bitLen_bounds (q : ℚ) (pn d : ℕ) (hd : 0 < d) (hpn : (pn : ℚ) = q * d)
    (h1 : 1 ≤ q * 2 ^ (100 : ℕ)) (h2 : q < 2 ^ (190 : ℕ)) :
    1 ≤ bitLen 300 (pn * 2 ^ 100 / d) ∧
      (2 : ℚ) ^ (bitLen 300 (pn * 2 ^ 100 / d) - 1) ≤ q * 2 ^ (100 : ℕ) ∧
      q * 2 ^ (100 : ℕ) < 2 ^ bitLen 300 (pn * 2 ^ 100 / d) := by
  have hdq : (0 : ℚ) < (d : ℚ) := by exact_mod_cast hd
  have hNq : ((pn * 2 ^ 100 : ℕ) : ℚ) = (q * 2 ^ (100 : ℕ)) * d := by
    push_cast
    rw [hpn]
    ring
  have hNd : d ≤ pn * 2 ^ 100 := by
    have : (d : ℚ) ≤ ((pn * 2 ^ 100 : ℕ) : ℚ) := by rw [hNq]; nlinarith
    exact_mod_cast this
  have hf1 : 1 ≤ pn * 2 ^ 100 / d := (Nat.one_le_div_iff hd).mpr hNd
  have hNu : pn * 2 ^ 100 < 2 ^ 290 * d := by
    have : ((pn * 2 ^ 100 : ℕ) : ℚ) < 2 ^ 290 * d := by
      rw [hNq]
      have hpow : (2 : ℚ) ^ 290 = 2 ^ (190 : ℕ) * 2 ^ (100 : ℕ) := by norm_num
      nlinarith [pow_pos (by norm_num : (0:ℚ) < 2) 100]
    exact_mod_cast this
  have hfu : pn * 2 ^ 100 / d < 2 ^ 290 := Nat.div_lt_of_lt_mul (by linarith [hNu])
  have hf300 : pn * 2 ^ 100 / d < 2 ^ 300 := lt_trans hfu (by norm_num)
  obtain ⟨hL1, hlosp, hhisp⟩ := bitLen_spec 300 (pn * 2 ^ 100 / d) (by omega) hf300
  have hfloor := Nat.div_mul_le_self (pn * 2 ^ 100) d
  have hmod : pn * 2 ^ 100 % d < d := Nat.mod_lt _ hd
  have hdecomp := Nat.div_add_mod (pn * 2 ^ 100) d
  refine ⟨hL1, ?_, ?_⟩
  · have hfq : ((pn * 2 ^ 100 / d : ℕ) : ℚ) * d ≤ ((pn * 2 ^ 100 : ℕ) : ℚ) := by
      exact_mod_cast hfloor
    have hcast : ((2 : ℚ)) ^ (bitLen 300 (pn * 2 ^ 100 / d) - 1) ≤
        ((pn * 2 ^ 100 / d : ℕ) : ℚ) := by exact_mod_cast hlosp
    have hchain : (2 : ℚ) ^ (bitLen 300 (pn * 2 ^ 100 / d) - 1) * d ≤ (q * 2 ^ (100 : ℕ)) * d := by
      calc (2 : ℚ) ^ (bitLen 300 (pn * 2 ^ 100 / d) - 1) * d
          ≤ ((pn * 2 ^ 100 / d : ℕ) : ℚ) * d := by
            exact mul_le_mul_of_nonneg_right hcast hdq.le
      _ ≤ ((pn * 2 ^ 100 : ℕ) : ℚ) := hfq
      _ = (q * 2 ^ (100 : ℕ)) * d := hNq
    exact le_of_mul_le_mul_right hchain hdq
  · have hup : pn * 2 ^ 100 < (pn * 2 ^ 100 / d + 1) * d := by
      have hms : (pn * 2 ^ 100 / d + 1) * d = d * (pn * 2 ^ 100 / d) + d := by ring
      omega
    have h1q : ((pn * 2 ^ 100 : ℕ) : ℚ) < (((pn * 2 ^ 100 / d : ℕ) : ℚ) + 1) * d := by
      exact_mod_cast hup
    have hfL : ((pn * 2 ^ 100 / d : ℕ) : ℚ) + 1 ≤ (2 : ℚ) ^ (bitLen 300 (pn * 2 ^ 100 / d)) := by
      have : pn * 2 ^ 100 / d + 1 ≤ 2 ^ (bitLen 300 (pn * 2 ^ 100 / d)) := hhisp
      exact_mod_cast this
    have hchain : (q * 2 ^ (100 : ℕ)) * d < (2 : ℚ) ^ (bitLen 300 (pn * 2 ^ 100 / d)) * d := by
      calc (q * 2 ^ (100 : ℕ)) * d = ((pn * 2 ^ 100 : ℕ) : ℚ) := hNq.symm
      _ < (((pn * 2 ^ 100 / d : ℕ) : ℚ) + 1) * d := h1q
      _ ≤ (2 : ℚ) ^ (bitLen 300 (pn * 2 ^ 100 / d)) * d := by
            exact mul_le_mul_of_nonneg_right hfL hdq.le
    exact lt_of_mul_lt_mul_right hchain hdq.le

theorem r64L_spec (q : ℚ) (h1 : 1 ≤ q * 2 ^ (100 : ℕ)) (h2 : q < 2 ^ (190 : ℕ)) :
    1 ≤ r64L q ∧ (2 : ℚ) ^ (r64L q - 1) ≤ q * 2 ^ (100 : ℕ) ∧
      q * 2 ^ (100 : ℕ) < 2 ^ r64L q := by
  have hq : 0 < q := by nlinarith [pow_pos (by norm_num : (0:ℚ) < 2) 100]
  exact bitLen_bounds q q.num.toNat q.den q.pos (num_toNat_eq q hq) h1 h2

theorem two_zpow_add (a b : ℤ) : (2 : ℚ) ^ (a + b) = 2 ^ a * 2 ^ b :=
  zpow_add₀ two_ne_zero a b

theorem two_zpow_pos (a : ℤ) : (0 : ℚ) < 2 ^ a :=
  zpow_pos (by norm_num) a

theorem two_zpow_mono {a b : ℤ} (hab : a ≤ b) : (2 : ℚ) ^ a ≤ 2 ^ b :=
  zpow_le_zpow_right₀ (by norm_num) hab

theorem r64L_zpow (q : ℚ) (h1 : 1 ≤ q * 2 ^ (100 : ℕ)) (h2 : q < 2 ^ (190 : ℕ)) :
    (2 : ℚ) ^ ((r64L q : ℤ) - 101) ≤ q ∧ q < (2 : ℚ) ^ ((r64L q : ℤ) - 100) := by
  obtain ⟨hL1, hlo, hhi⟩ := r64L_spec q h1 h2
  have h100 : (0 : ℚ) < 2 ^ (100 : ℕ) := by positivity
  have hc1 : ((r64L q - 1 : ℕ) : ℤ) = (r64L q : ℤ) - 1 := by omega
  constructor
  · have : (2 : ℚ) ^ ((r64L q : ℤ) - 101) * 2 ^ ((100 : ℕ) : ℤ) ≤ q * 2 ^ (100 : ℕ) := by
      rw [← two_zpow_add]
      calc (2 : ℚ) ^ ((r64L q : ℤ) - 101 + 100) = 2 ^ ((r64L q - 1 : ℕ) : ℤ) := by
            rw [hc1]; ring_nf
      _ = 2 ^ (r64L q - 1 : ℕ) := zpow_natCast 2 _
      _ ≤ q * 2 ^ (100 : ℕ) := hlo
    rw [zpow_natCast] at this
    exact le_of_mul_le_mul_right this h100
  · have : q * 2 ^ (100 : ℕ) < (2 : ℚ) ^ ((r64L q : ℤ) - 100) * 2 ^ ((100 : ℕ) : ℤ) := by
      rw [← two_zpow_add]
      calc q * 2 ^ (100 : ℕ) < 2 ^ r64L q := hhi
      _ = (2 : ℚ) ^ ((r64L q : ℤ)) := (zpow_natCast 2 _).symm
      _ = (2 : ℚ) ^ ((r64L q : ℤ) - 100 + 100) := by ring_nf
    rw [zpow_natCast] at this
    exact lt_of_mul_lt_mul_right this h100.le

theorem r64sn_cast (q : ℚ) (hq : 0 < q) :
    (r64sn q : ℚ) = q * q.den * 2 ^ (((-r64e q).toNat : ℤ)) := by
  have h := num_toNat_eq q hq
  simp only [r64sn]
  push_cast
  rw [h, zpow_natCast]

theorem r64sd_cast (q : ℚ) :
    (r64sd q : ℚ) = (q.den : ℚ) * 2 ^ (((r64e q).toNat : ℤ)) := by
  simp only [r64sd]
  push_cast
  rw [zpow_natCast]

theorem r64e_toNat_sub (q : ℚ) :
    ((-r64e q).toNat : ℤ) - ((r64e q).toNat : ℤ) = 153 - (r64L q : ℤ) := by
  have he : r64e q = (r64L q : ℤ) - 153 := rfl
  omega

/-- The scaled value `r64sn q / r64sd q` lies in `[2 ^ 52, 2 ^ 53)`. -/
theorem r64_scaled (q : ℚ) (h1 : 1 ≤ q * 2 ^ (100 : ℕ)) (h2 : q < 2 ^ (190 : ℕ)) :
    (2 : ℚ) ^ (52 : ℕ) * r64sd q ≤ r64sn q ∧ (r64sn q : ℚ) < 2 ^ (53 : ℕ) * r64sd q := by
  have hq : 0 < q := by nlinarith [pow_pos (by norm_num : (0:ℚ) < 2) 100]
  obtain ⟨hlo, hhi⟩ := r64L_zpow q h1 h2
  have hdq : (0 : ℚ) < (q.den : ℚ) := by exact_mod_cast q.pos
  have hsub := r64e_toNat_sub q
  have hsn := r64sn_cast q hq
  have hsd := r64sd_cast q
  constructor
  · rw [hsn, r64sd_cast, ← zpow_natCast (2 : ℚ) 52]
    calc (2 : ℚ) ^ ((52 : ℕ) : ℤ) * ((q.den : ℚ) * 2 ^ (((r64e q).toNat : ℤ)))
        = (2 : ℚ) ^ ((r64L q : ℤ) - 101) * ((q.den : ℚ) * 2 ^ (((-r64e q).toNat : ℤ))) := by
          rw [mul_comm ((2:ℚ) ^ ((52:ℕ):ℤ)) _, mul_comm ((2:ℚ) ^ ((r64L q : ℤ) - 101)) _]
          rw [mul_assoc, mul_assoc, ← two_zpow_add, ← two_zpow_add]
          congr 1
          congr 1
          omega
    _ ≤ q * ((q.den : ℚ) * 2 ^ (((-r64e q).toNat : ℤ))) := by
          refine mul_le_mul_of_nonneg_right hlo ?_
          positivity
    _ = q * q.den * 2 ^ (((-r64e q).toNat : ℤ)) := by ring
  · rw [hsn, r64sd_cast, ← zpow_natCast (2 : ℚ) 53]
    calc q * q.den * 2 ^ (((-r64e q).toNat : ℤ))
        < (2 : ℚ) ^ ((r64L q : ℤ) - 100) * ((q.den : ℚ) * 2 ^ (((-r64e q).toNat : ℤ))) := by
          rw [mul_assoc]
          refine mul_lt_mul_of_pos_right hhi ?_
          positivity
    _ = (2 : ℚ) ^ ((53 : ℕ) : ℤ) * ((q.den : ℚ) * 2 ^ (((r64e q).toNat : ℤ))) := by
          rw [mul_comm ((2:ℚ) ^ ((53:ℕ):ℤ)) _, mul_comm ((2:ℚ) ^ ((r64L q : ℤ) - 100)) _]
          rw [mul_assoc, mul_assoc, ← two_zpow_add, ← two_zpow_add]
          congr 1
          congr 1
          omega

theorem r64m_cases (q : ℚ) :
    r64m q = r64sn q / r64sd q ∨ r64m q = r64sn q / r64sd q + 1 := by
  simp only [r64m]
  split_ifs <;> simp

/-- The rounded significand is within half a unit of the scaled value. -/
theorem r64m_dist (q : ℚ) (hsd : 0 < r64sd q) :
    |(r64m q : ℚ) * r64sd q - r64sn q| ≤ (r64sd q : ℚ) / 2 := by
  have hdm := Nat.div_add_mod (r64sn q) (r64sd q)
  have hmod : r64sn q % r64sd q < r64sd q := Nat.mod_lt _ hsd
  have hm : r64m q =
      if 2 * (r64sn q % r64sd q) < r64sd q then r64sn q / r64sd q
      else if r64sd q < 2 * (r64sn q % r64sd q) then r64sn q / r64sd q + 1
      else if r64sn q / r64sd q % 2 = 0 then r64sn q / r64sd q
      else r64sn q / r64sd q + 1 := rfl
  have hsnq : (r64sn q : ℚ) = (r64sd q : ℚ) * (r64sn q / r64sd q : ℕ) + (r64sn q % r64sd q : ℕ) := by
    exact_mod_cast hdm.symm
  rw [abs_le]
  split_ifs at hm with hc1 hc2 hc3
  · have hc1q : 2 * ((r64sn q % r64sd q : ℕ) : ℚ) ≤ (r64sd q : ℚ) := by
      have : 2 * (r64sn q % r64sd q) ≤ r64sd q := hc1.le
      exact_mod_cast this
    have hnn : (0 : ℚ) ≤ ((r64sn q % r64sd q : ℕ) : ℚ) := by positivity
    rw [hm]
    constructor <;> nlinarith [hsnq]
  · have hc2q : (r64sd q : ℚ) ≤ 2 * ((r64sn q % r64sd q : ℕ) : ℚ) := by
      have : r64sd q ≤ 2 * (r64sn q % r64sd q) := hc2.le
      exact_mod_cast this
    have hmq : ((r64sn q % r64sd q : ℕ) : ℚ) < (r64sd q : ℚ) := by exact_mod_cast hmod
    rw [hm]
    push_cast
    constructor <;> nlinarith [hsnq]
  · have hceq : 2 * ((r64sn q % r64sd q : ℕ) : ℚ) = (r64sd q : ℚ) := by
      have : 2 * (r64sn q % r64sd q) = r64sd q := by omega
      exact_mod_cast this
    rw [hm]
    constructor <;> nlinarith [hsnq]
  · have hceq : 2 * ((r64sn q % r64sd q : ℕ) : ℚ) = (r64sd q : ℚ) := by
      have : 2 * (r64sn q % r64sd q) = r64sd q := by omega
      exact_mod_cast this
    rw [hm]
    push_cast
    constructor <;> nlinarith [hsnq]

theorem r64sd_pos (q : ℚ) : 0 < r64sd q := by
  have h2 : 0 < 2 ^ (r64e q).toNat := Nat.pos_pow_of_pos _ (by norm_num)
  exact Nat.mul_pos q.pos h2

theorem round64pos_val (q : ℚ) :
    round64pos q = (r64m q : ℚ) * 2 ^ (((r64e q).toNat : ℤ)) / 2 ^ (((-r64e q).toNat : ℤ)) := by
  rw [round64pos, Rat.mkRat_eq_div]
  push_cast
  rw [zpow_natCast, zpow_natCast]

/-- Round-to-nearest error bound: binary64 rounding changes a value by at
most one part in `2 ^ 53` (for values in the validity range), and preserves
positivity. -/
theorem round64_err (q : ℚ) (h1 : 1 ≤ q * 2 ^ (100 : ℕ)) (h2 : q < 2 ^ (190 : ℕ)) :
    |round64 q - q| * 2 ^ (53 : ℕ) ≤ q ∧ 0 < round64 q := by
  have hq : 0 < q := by nlinarith [pow_pos (by norm_num : (0:ℚ) < 2) 100]
  have hr64 : round64 q = round64pos q := by rw [round64, if_pos hq]
  obtain ⟨hsclo, hschi⟩ := r64_scaled q h1 h2
  have hsdq : (0 : ℚ) < (r64sd q : ℚ) := by exact_mod_cast r64sd_pos q
  have hdist := r64m_dist q (r64sd_pos q)
  have hP : (0 : ℚ) < 2 ^ (((r64e q).toNat : ℤ)) := two_zpow_pos _
  have hNn : (0 : ℚ) < 2 ^ (((-r64e q).toNat : ℤ)) := two_zpow_pos _
  have hkey : q * 2 ^ (((-r64e q).toNat : ℤ)) * r64sd q =
      (r64sn q : ℚ) * 2 ^ (((r64e q).toNat : ℤ)) := by
    rw [r64sn_cast q hq, r64sd_cast q]
    ring
  have hm1 : 1 ≤ r64m q := by
    have hsd1 : r64sd q ≤ r64sn q := by
      have h52 : (1 : ℚ) ≤ 2 ^ (52 : ℕ) := by norm_num
      have : (r64sd q : ℚ) ≤ (r64sn q : ℚ) := by nlinarith
      exact_mod_cast this
    have hk1 : 1 ≤ r64sn q / r64sd q := (Nat.one_le_div_iff (r64sd_pos q)).mpr hsd1
    rcases r64m_cases q with h | h <;> omega
  constructor
  · rw [hr64, round64pos_val]
    have hstep : (r64m q : ℚ) * 2 ^ (((r64e q).toNat : ℤ)) / 2 ^ (((-r64e q).toNat : ℤ)) - q =
        (((r64m q : ℚ) * r64sd q - r64sn q) * 2 ^ (((r64e q).toNat : ℤ))) /
          (2 ^ (((-r64e q).toNat : ℤ)) * r64sd q) := by
      rw [eq_div_iff (ne_of_gt (by positivity : (0:ℚ) <
        2 ^ (((-r64e q).toNat : ℤ)) * r64sd q))]
      have hcancel : (r64m q : ℚ) * 2 ^ (((r64e q).toNat : ℤ)) / 2 ^ (((-r64e q).toNat : ℤ)) *
          2 ^ (((-r64e q).toNat : ℤ)) = (r64m q : ℚ) * 2 ^ (((r64e q).toNat : ℤ)) :=
        div_mul_cancel₀ _ (ne_of_gt hNn)
      calc ((r64m q : ℚ) * 2 ^ (((r64e q).toNat : ℤ)) / 2 ^ (((-r64e q).toNat : ℤ)) - q) *
            (2 ^ (((-r64e q).toNat : ℤ)) * r64sd q)
          = ((r64m q : ℚ) * 2 ^ (((r64e q).toNat : ℤ)) / 2 ^ (((-r64e q).toNat : ℤ)) *
              2 ^ (((-r64e q).toNat : ℤ))) * r64sd q -
              q * 2 ^ (((-r64e q).toNat : ℤ)) * r64sd q := by ring
      _ = (r64m q : ℚ) * 2 ^ (((r64e q).toNat : ℤ)) * r64sd q -
            q * 2 ^ (((-r64e q).toNat : ℤ)) * r64sd q := by rw [hcancel]
      _ = ((r64m q : ℚ) * r64sd q - r64sn q) * 2 ^ (((r64e q).toNat : ℤ)) := by
            linear_combination (-1 : ℚ) * hkey
    rw [hstep, abs_div, abs_mul]
    rw [abs_of_pos hP, abs_of_pos (by positivity : (0:ℚ) < 2 ^ (((-r64e q).toNat : ℤ)) * r64sd q)]
    rw [div_mul_eq_mul_div, div_le_iff (by positivity)]
    calc |(r64m q : ℚ) * r64sd q - r64sn q| * 2 ^ (((r64e q).toNat : ℤ)) * 2 ^ (53 : ℕ)
        ≤ ((r64sd q : ℚ) / 2) * 2 ^ (((r64e q).toNat : ℤ)) * 2 ^ (53 : ℕ) := by
          have h53 : (0:ℚ) < (2:ℚ) ^ (53 : ℕ) := by positivity
          nlinarith [hdist, hP]
    _ = (2 : ℚ) ^ (52 : ℕ) * r64sd q * 2 ^ (((r64e q).toNat : ℤ)) := by
          norm_num
          ring
    _ ≤ (r64sn q : ℚ) * 2 ^ (((r64e q).toNat : ℤ)) := by nlinarith [hsclo, hP]
    _ = q * 2 ^ (((-r64e q).toNat : ℤ)) * r64sd q := hkey.symm
    _ = q * (2 ^ (((-r64e q).toNat : ℤ)) * r64sd q) := by ring
  · rw [hr64, round64pos_val]
    have hm1q : (1 : ℚ) ≤ (r64m q : ℚ) := by exact_mod_cast hm1
    positivity

/-- Binary64 rounding is exact on natural numbers below `2 ^ 53`. -/
theorem round64_natCast (n : ℕ) (hn : n < 2 ^ 53) : round64 (n : ℚ) = n := by
  rcases Nat.eq_zero_or_pos n with h0 | hpos
  · subst h0
    norm_num [round64]
  · have hq : (0 : ℚ) < n := by exact_mod_cast hpos
    have hr64 : round64 (n : ℚ) = round64pos n := by rw [round64, if_pos hq]
    have hnum : ((n : ℚ)).num = n := Rat.num_natCast n
    have hden : ((n : ℚ)).den = 1 := Rat.den_natCast n
    have h1 : 1 ≤ (n : ℚ) * 2 ^ (100 : ℕ) := by
      have hn1 : (1 : ℚ) ≤ n := by exact_mod_cast hpos
      nlinarith [pow_pos (by norm_num : (0:ℚ) < 2) 100]
    have h2 : (n : ℚ) < 2 ^ (190 : ℕ) := by
      have ha : (n : ℚ) < 2 ^ (53 : ℕ) := by exact_mod_cast hn
      have hb : (2 : ℚ) ^ (53 : ℕ) < 2 ^ (190 : ℕ) := by norm_num
      linarith
    obtain ⟨hL1, hlo, hhi⟩ := r64L_spec (n : ℚ) h1 h2
    have hL153 : r64L (n : ℚ) ≤ 153 := by
      by_contra hc
      push_neg at hc
      have hmono : (2 : ℚ) ^ (153 : ℕ) ≤ 2 ^ (r64L (n : ℚ) - 1) := by
        apply pow_le_pow_right (by norm_num)
        omega
      have hflt : (n : ℚ) * 2 ^ (100 : ℕ) < 2 ^ (153 : ℕ) := by
        have hn' : (n : ℚ) < 2 ^ (53 : ℕ) := by exact_mod_cast hn
        have hprod : (2 : ℚ) ^ (53 : ℕ) * 2 ^ (100 : ℕ) = 2 ^ (153 : ℕ) := by norm_num
        nlinarith [pow_pos (by norm_num : (0:ℚ) < 2) 100]
      linarith
    have he : r64e (n : ℚ) = (r64L (n : ℚ) : ℤ) - 153 := rfl
    have hepos : (r64e (n : ℚ)).toNat = 0 := by omega
    have hsd : r64sd (n : ℚ) = 1 := by simp [r64sd, hden, hepos]
    have hsn0 : r64sn (n : ℚ) % r64sd (n : ℚ) = 0 := by
      rw [hsd]
      exact Nat.mod_one _
    have hmdef : r64m (n : ℚ) =
        if 2 * (r64sn (n : ℚ) % r64sd (n : ℚ)) < r64sd (n : ℚ) then
          r64sn (n : ℚ) / r64sd (n : ℚ)
        else if r64sd (n : ℚ) < 2 * (r64sn (n : ℚ) % r64sd (n : ℚ)) then
          r64sn (n : ℚ) / r64sd (n : ℚ) + 1
        else if r64sn (n : ℚ) / r64sd (n : ℚ) % 2 = 0 then r64sn (n : ℚ) / r64sd (n : ℚ)
        else r64sn (n : ℚ) / r64sd (n : ℚ) + 1 := rfl
    have hm : r64m (n : ℚ) = r64sn (n : ℚ) := by
      rw [hmdef, hsn0, hsd]
      norm_num
    have hsnval : r64sn (n : ℚ) = n * 2 ^ (-r64e (n : ℚ)).toNat := by
      simp [r64sn, hnum]
    rw [hr64, round64pos_val, hm, hepos, hsnval]
    push_cast
    rw [zpow_natCast]
    have hne : ((2 : ℚ)) ^ ((-r64e (n : ℚ)).toNat) ≠ 0 := by positivity
    field_simp

/-- Convenient two-sided multiplicative bounds on `round64`. -/
theorem round64_close (q : ℚ) (h1 : 1 ≤ q * 2 ^ (100 : ℕ)) (h2 : q < 2 ^ (190 : ℕ)) :
    q * (1 - (1 : ℚ) / 2 ^ (53 : ℕ)) ≤ round64 q ∧
      round64 q ≤ q * (1 + (1 : ℚ) / 2 ^ (53 : ℕ)) ∧ 0 < round64 q := by
  obtain ⟨herr, hpos⟩ := round64_err q h1 h2
  have h53 : (0 : ℚ) < 2 ^ (53 : ℕ) := by positivity
  have habs : |round64 q - q| ≤ q / 2 ^ (53 : ℕ) := by
    rw [le_div_iff h53]
    exact herr
  rw [abs_le] at habs
  constructor
  · have := habs.1
    have hexp : q * (1 - (1 : ℚ) / 2 ^ (53 : ℕ)) = q - q / 2 ^ (53 : ℕ) := by ring
    linarith
  constructor
  · have := habs.2
    have hexp : q * (1 + (1 : ℚ) / 2 ^ (53 : ℕ)) = q + q / 2 ^ (53 : ℕ) := by ring
    linarith
  · exact hpos

theorem qmul_eq (q r : ℚ) : qmul q r = q * r := by
  rw [qmul, Rat.mkRat_eq_div]
  have hqd : ((q.den : ℚ)) ≠ 0 := by exact_mod_cast q.den_nz
  have hrd : ((r.den : ℚ)) ≠ 0 := by exact_mod_cast r.den_nz
  have h1 : (q.num : ℚ) = q * q.den := by
    have := Rat.num_div_den q
    rw [div_eq_iff hqd] at this
    exact this
  have h2 : (r.num : ℚ) = r * r.den := by
    have := Rat.num_div_den r
    rw [div_eq_iff hrd] at this
    exact this
  push_cast
  field_simp
  rw [h1, h2]
  ring

theorem round64_nonneg (q : ℚ) (hq : 0 ≤ q) : 0 ≤ round64 q := by
  rw [round64]
  split_ifs with hpos hneg
  · rw [round64pos_val]
    positivity
  · linarith
  · exact le_refl 0

/-- Range facts about `hgtq * R1` needed to apply `round64_close` to the
product, given that `R1` approximates `twq / widq` to one part in `2 ^ 53`.
Stated over abstract rationals so that no hypothesis mentions `round64`. -/
theorem r64v_range (hgtq twq widq R1 : ℚ)
    (hw : 0 < widq) (htw1 : 1 ≤ twq) (htwlt : twq < widq)
    (hwle : widq ≤ 2 ^ (31 : ℕ)) (hh1 : 1 ≤ hgtq)
    (hhle : hgtq ≤ 2 ^ (31 : ℕ))
    (hr1lo : (twq / widq) * (1 - 1/2^(53:ℕ)) ≤ R1)
    (hr1hi : R1 ≤ (twq / widq) * (1 + 1/2^(53:ℕ))) :
    1 ≤ (hgtq * R1) * 2 ^ (100 : ℕ) ∧ hgtq * R1 < 2 ^ (190 : ℕ) := by
  have hqr0 : 0 < twq / widq := div_pos (by linarith) hw
  have hqr1 : twq / widq < 1 := (div_lt_one hw).mpr htwlt
  have hqrlb : (1 : ℚ) / 2 ^ (31 : ℕ) ≤ twq / widq := by
    rw [div_le_div_iff (by positivity) hw]
    nlinarith [pow_pos (by norm_num : (0:ℚ) < 2) 31]
  have hr1_lb : (1 : ℚ) / 2 ^ (32 : ℕ) ≤ R1 := by
    have hm1 : (1:ℚ)/2^(31:ℕ) * (1 - 1/2^(53:ℕ)) ≤ (twq / widq) * (1 - 1/2^(53:ℕ)) :=
      mul_le_mul_of_nonneg_right hqrlb (by norm_num)
    have hm2 : (1:ℚ)/2^(32:ℕ) ≤ (1:ℚ)/2^(31:ℕ) * (1 - 1/2^(53:ℕ)) := by norm_num
    linarith
  have hr1_ub : R1 ≤ 2 := by
    have hm1 : (twq / widq) * (1 + 1/2^(53:ℕ)) ≤ 1 * (1 + 1/2^(53:ℕ)) :=
      mul_le_mul_of_nonneg_right hqr1.le (by norm_num)
    have hm2 : (1:ℚ) * (1 + 1/2^(53:ℕ)) ≤ 2 := by norm_num
    linarith
  constructor
  · have hv_lb : (1:ℚ)/2^(32:ℕ) ≤ hgtq * R1 := by nlinarith [hr1_lb]
    have hn : (1:ℚ)/2^(32:ℕ) * 2^(100:ℕ) = 2^(68:ℕ) := by norm_num
    have h68 : (1:ℚ) ≤ 2^(68:ℕ) := by norm_num
    nlinarith [pow_pos (by norm_num : (0:ℚ) < 2) 100]
  · have hvle : hgtq * R1 ≤ 2^(31:ℕ) * 2 := by
      nlinarith [hr1_ub, hr1_lb]
    have : (2:ℚ)^(31:ℕ) * 2 < 2^(190:ℕ) := by norm_num
    linarith

/-- Pure error-propagation estimate: if `R1` approximates `twq / widq` and
`R2` approximates `hgtq * R1`, each to one part in `2 ^ 53`, then `R2` is
within `1` of the exact scaled height `hgtq * twq / widq`, and is at least
`1` as soon as `widq + 1 ≤ hgtq * twq` (dimensions bounded by `2 ^ 31`). -/
theorem r64height_est (hgtq twq widq R1 R2 : ℚ)
    (hw : 0 < widq) (htw1 : 1 ≤ twq) (htwlt : twq < widq)
    (hwle : widq ≤ 2 ^ (31 : ℕ)) (hh1 : 1 ≤ hgtq)
    (hhle : hgtq ≤ 2 ^ (31 : ℕ))
    (hr1lo : (twq / widq) * (1 - 1/2^(53:ℕ)) ≤ R1)
    (hr1hi : R1 ≤ (twq / widq) * (1 + 1/2^(53:ℕ)))
    (hr2lo : (hgtq * R1) * (1 - 1/2^(53:ℕ)) ≤ R2)
    (hr2hi : R2 ≤ (hgtq * R1) * (1 + 1/2^(53:ℕ))) :
    (hgtq * (twq / widq)) - 1 ≤ R2 ∧ R2 ≤ (hgtq * (twq / widq)) + 1 ∧
      (widq + 1 ≤ hgtq * twq → 1 ≤ R2) := by
  have hqr0 : 0 < twq / widq := div_pos (by linarith) hw
  have hqr1 : twq / widq < 1 := (div_lt_one hw).mpr htwlt
  have hex_pos : (0:ℚ) < hgtq * (twq / widq) := by positivity
  have hexle : hgtq * (twq / widq) ≤ 2 ^ (31 : ℕ) := by
    nlinarith [pow_pos (by norm_num : (0:ℚ) < 2) 31]
  have hv_ge : (hgtq * (twq / widq)) * (1 - 1/2^(53:ℕ)) ≤ hgtq * R1 := by
    have hstep := mul_le_mul_of_nonneg_left hr1lo (by linarith : (0:ℚ) ≤ hgtq)
    nlinarith [hstep]
  have hv_le : hgtq * R1 ≤ (hgtq * (twq / widq)) * (1 + 1/2^(53:ℕ)) := by
    have hstep := mul_le_mul_of_nonneg_left hr1hi (by linarith : (0:ℚ) ≤ hgtq)
    nlinarith [hstep]
  have hr2_ge : (hgtq * (twq / widq)) * (1 - 1/2^(53:ℕ)) * (1 - 1/2^(53:ℕ)) ≤ R2 := by
    have hstep := mul_le_mul_of_nonneg_right hv_ge (by norm_num : (0:ℚ) ≤ 1 - 1/2^(53:ℕ))
    linarith
  have hr2_le : R2 ≤ (hgtq * (twq / widq)) * (1 + 1/2^(53:ℕ)) * (1 + 1/2^(53:ℕ)) := by
    have hstep := mul_le_mul_of_nonneg_right hv_le (by norm_num : (0:ℚ) ≤ 1 + 1/2^(53:ℕ))
    linarith
  refine ⟨?_, ?_, ?_⟩
  · have hn1 : (2:ℚ)^(31:ℕ) * (2 * (1/2^(53:ℕ))) ≤ 1 := by norm_num
    nlinarith [hr2_ge, hexle, hex_pos]
  · have hn1 : (2:ℚ)^(31:ℕ) * (2 * (1/2^(53:ℕ)) + (1/2^(53:ℕ)) * (1/2^(53:ℕ))) ≤ 1 := by
      norm_num
    nlinarith [hr2_le, hexle, hex_pos]
  · intro hge1
    have hex_ge : 1 + (1:ℚ)/2^(31:ℕ) ≤ hgtq * (twq / widq) := by
      have hdiv : hgtq * (twq / widq) = (hgtq * twq) / widq := by ring
      rw [hdiv, le_div_iff hw]
      have hone : (2:ℚ)^(31:ℕ) * (1/2^(31:ℕ)) = 1 := by norm_num
      nlinarith [pow_pos (by norm_num : (0:ℚ) < 2) 31]
    have hnum : (1 + (1:ℚ)/2^(31:ℕ)) * ((1 - 1/2^(53:ℕ)) * (1 - 1/2^(53:ℕ))) ≥ 1 := by
      norm_num
    nlinarith [hr2_ge, hex_ge]

/-- Analysis of the binary64 height computation of `resize_image`: for image
dimensions up to `2 ^ 31` the computed height is within one of the exact
value `⌊hgt * tw / wid⌋`, and it is at least `1` whenever
`wid < hgt * tw`. -/
theorem pyNewHeight_bounds (hgt wid tw : ℕ)
    (htw : 0 < tw) (hwt : tw < wid) (hwid : wid ≤ 2 ^ 31) (hhgt : hgt ≤ 2 ^ 31)
    (hh0 : 0 < hgt) :
    (⌊((hgt * tw : ℕ) : ℚ) / wid⌋ - 1 ≤ pyNewHeight hgt wid tw ∧
      pyNewHeight hgt wid tw ≤ ⌊((hgt * tw : ℕ) : ℚ) / wid⌋ + 1) ∧
    (wid < hgt * tw → 1 ≤ pyNewHeight hgt wid tw) := by
  have hw0 : 0 < wid := lt_trans htw hwt
  have hwq : (0 : ℚ) < wid := by exact_mod_cast hw0
  have htwq : (1 : ℚ) ≤ tw := by exact_mod_cast htw
  have htwltq : (tw : ℚ) < wid := by exact_mod_cast hwt
  have hwidq : (wid : ℚ) ≤ 2 ^ (31 : ℕ) := by exact_mod_cast hwid
  have hhgtq : (hgt : ℚ) ≤ 2 ^ (31 : ℕ) := by exact_mod_cast hhgt
  have hh0q : (1 : ℚ) ≤ hgt := by exact_mod_cast hh0
  have hqr0 : (0 : ℚ) < (tw : ℚ) / wid := by positivity
  have h1qr : 1 ≤ (tw : ℚ) / wid * 2 ^ (100 : ℕ) := by
    rw [div_mul_eq_mul_div, le_div_iff hwq]
    have h31 : (2 : ℚ) ^ (31 : ℕ) ≤ 2 ^ (100 : ℕ) := by norm_num
    nlinarith [pow_pos (by norm_num : (0:ℚ) < 2) 100]
  have h2qr : (tw : ℚ) / wid < 2 ^ (190 : ℕ) := by
    have hqr1 : (tw : ℚ) / wid < 1 := (div_lt_one hwq).mpr htwltq
    have : (1 : ℚ) < 2 ^ (190 : ℕ) := by norm_num
    linarith
  obtain ⟨hr1lo, hr1hi, hr1pos⟩ := round64_close ((tw : ℚ) / wid) h1qr h2qr
  obtain ⟨R1, hR1def⟩ : ∃ x, round64 ((tw : ℚ) / wid) = x := ⟨_, rfl⟩
  rw [hR1def] at hr1lo hr1hi hr1pos
  obtain ⟨h1v, h2v⟩ :=
    r64v_range (hgt : ℚ) (tw : ℚ) (wid : ℚ) R1 hwq htwq htwltq hwidq hh0q hhgtq hr1lo hr1hi
  rw [← hR1def] at h1v h2v
  obtain ⟨hr2lo, hr2hi, hr2pos⟩ := round64_close ((hgt : ℚ) * round64 ((tw : ℚ) / wid)) h1v h2v
  obtain ⟨R2, hR2def⟩ : ∃ x, round64 ((hgt : ℚ) * round64 ((tw : ℚ) / wid)) = x := ⟨_, rfl⟩
  rw [hR2def] at hr2lo hr2hi hr2pos
  rw [hR1def] at hr2lo hr2hi
  obtain ⟨hlow, hup, hone⟩ :=
    r64height_est (hgt : ℚ) (tw : ℚ) (wid : ℚ) R1 R2 hwq htwq htwltq hwidq hh0q hhgtq
      hr1lo hr1hi hr2lo hr2hi
  have hmk : mkRat (tw : ℤ) wid = (tw : ℚ) / wid := by
    rw [Rat.mkRat_eq_div]
    push_cast
    ring
  have hpyf : pyfloat hgt = (hgt : ℚ) := by
    apply round64_natCast
    calc hgt ≤ 2 ^ 31 := hhgt
    _ < 2 ^ 53 := by norm_num
  have hPN : pyNewHeight hgt wid tw = ⌊R2⌋ := by
    show pytrunc (pymulIntFloat hgt (pydiv tw wid)) = ⌊R2⌋
    rw [pymulIntFloat, pydiv, hmk, hpyf, qmul_eq, hR2def, pytrunc,
      if_neg (not_lt.mpr hr2pos.le)]
  have hex : ((hgt * tw : ℕ) : ℚ) / wid = (hgt : ℚ) * ((tw : ℚ) / wid) := by
    push_cast
    ring
  refine ⟨⟨?_, ?_⟩, ?_⟩
  · rw [hPN, hex]
    have hmono := Int.floor_le_floor hlow
    have hsub : ⌊((hgt : ℚ) * ((tw : ℚ) / wid)) - 1⌋ = ⌊(hgt : ℚ) * ((tw : ℚ) / wid)⌋ - 1 := by
      have := Int.floor_sub_int ((hgt : ℚ) * ((tw : ℚ) / wid)) 1
      exact_mod_cast this
    omega
  · rw [hPN, hex]
    have hmono := Int.floor_le_floor hup
    have hadd : ⌊((hgt : ℚ) * ((tw : ℚ) / wid)) + 1⌋ = ⌊(hgt : ℚ) * ((tw : ℚ) / wid)⌋ + 1 := by
      have := Int.floor_add_int ((hgt : ℚ) * ((tw : ℚ) / wid)) 1
      exact_mod_cast this
    omega
  · intro hlt
    have hge1 : (wid : ℚ) + 1 ≤ (hgt : ℚ) * tw := by
      have hn : wid + 1 ≤ hgt * tw := hlt
      have := (Nat.cast_le (α := ℚ)).mpr hn
      push_cast at this
      linarith
    have hfinal : (1:ℚ) ≤ R2 := hone hge1
    rw [hPN]
    exact Int.le_floor.mpr (by exact_mod_cast hfinal)

theorem muldiv255_zero (a : ℕ) : muldiv255 a 0 = 0 := by
  simp [muldiv255]

theorem muldiv255_255 (a : ℕ) (ha : a ≤ 255) : muldiv255 a 255 = a := by
  simp only [muldiv255]
  omega

theorem blendBand_transparent (bgv srcv : ℕ) (hb : bgv ≤ 255) :
    blendBand 0 bgv srcv = bgv := by
  simp [blendBand, muldiv255_zero, muldiv255_255 bgv hb]

theorem blendBand_opaque (bgv srcv : ℕ) (hs : srcv ≤ 255) :
    blendBand 255 bgv srcv = srcv := by
  simp [blendBand, muldiv255_zero, muldiv255_255 srcv hs]

theorem mem_gatherImages {α : Type} (nameOf : α → String) (es : List String)
    (files : List α) (f : α) :
    f ∈ gatherImages nameOf es files ↔
      ∃ e ∈ es, f ∈ files ∧
        (strEndsWith (nameOf f) e = true ∨ strEndsWith (nameOf f) (upStr e) = true) := by
  induction es with
  | nil => simp [gatherImages]
  | cons e es ih =>
    simp only [gatherImages, List.mem_append, List.mem_filter, ih, List.mem_cons]
    constructor
    · rintro ((⟨hf, he⟩ | ⟨hf, he⟩) | ⟨e2, he2, hf, he⟩)
      · exact ⟨e, Or.inl rfl, hf, Or.inl he⟩
      · exact ⟨e, Or.inl rfl, hf, Or.inr he⟩
      · exact ⟨e2, Or.inr he2, hf, he⟩
    · rintro ⟨e2, he2 | he2, hf, he⟩
      · subst he2
        rcases he with he | he
        · exact Or.inl (Or.inl ⟨hf, he⟩)
        · exact Or.inl (Or.inr ⟨hf, he⟩)
      · exact Or.inr ⟨e2, he2, hf, he⟩

theorem keepFirst_congr {α : Type} [DecidableEq α] (s1 s2 : List α)
    (hs : ∀ a, a ∈ s1 ↔ a ∈ s2) : ∀ l : List α, keepFirst s1 l = keepFirst s2 l := by
  intro l
  induction l generalizing s1 s2 with
  | nil => simp [keepFirst]
  | cons x xs ih =>
    simp only [keepFirst]
    by_cases hx : x ∈ s1
    · rw [if_pos hx, if_pos ((hs x).mp hx)]
      exact ih s1 s2 hs
    · rw [if_neg hx, if_neg (fun hc => hx ((hs x).mpr hc))]
      congr 1
      refine ih (x :: s1) (x :: s2) ?_
      intro a
      simp [hs a]

theorem mem_keepFirst {α : Type} [DecidableEq α] (a : α) :
    ∀ (s l : List α), a ∈ keepFirst s l ↔ a ∈ l ∧ a ∉ s := by
  intro s l
  induction l generalizing s with
  | nil => simp [keepFirst]
  | cons x xs ih =>
    simp only [keepFirst]
    by_cases hx : x ∈ s
    · rw [if_pos hx, ih]
      constructor
      · rintro ⟨ha, hs⟩
        exact ⟨List.mem_cons_of_mem _ ha, hs⟩
      · rintro ⟨ha, hs⟩
        rcases List.mem_cons.mp ha with rfl | ha
        · exact absurd hx hs
        · exact ⟨ha, hs⟩
    · rw [if_neg hx]
      constructor
      · intro hmem
        rcases List.mem_cons.mp hmem with rfl | hmem2
        · exact ⟨List.mem_cons_self _ _, hx⟩
        · obtain ⟨ha, hns⟩ := (ih (x :: s)).mp hmem2
          refine ⟨List.mem_cons_of_mem _ ha, fun hc => hns (List.mem_cons_of_mem _ hc)⟩
      · rintro ⟨haxs, hns⟩
        by_cases hax : a = x
        · exact hax ▸ List.mem_cons_self _ _
        · rcases List.mem_cons.mp haxs with rfl | ha
          · exact absurd rfl hax
          · refine List.mem_cons_of_mem _ ((ih (x :: s)).mpr ⟨ha, ?_⟩)
            intro hc
            rcases List.mem_cons.mp hc with h1 | h2
            · exact hax h1
            · exact hns h2

theorem keepFirst_keepFirst {α : Type} [DecidableEq α] :
    ∀ (s l : List α), keepFirst s (keepFirst s l) = keepFirst s l := by
  intro s l
  induction l generalizing s with
  | nil => simp [keepFirst]
  | cons x xs ih =>
    simp only [keepFirst]
    by_cases hx : x ∈ s
    · rw [if_pos hx, ih]
    · rw [if_neg hx]
      simp only [keepFirst, if_neg hx]
      congr 1
      exact ih (x :: s)

theorem dedupFirst_idem {α : Type} [DecidableEq α] (l : List α) :
    dedupFirst (dedupFirst l) = dedupFirst l :=
  keepFirst_keepFirst [] l

theorem keepFirst_map {α β : Type} [DecidableEq α] [DecidableEq β] (f : α → β) :
    ∀ (l : List α) (sl : List α) (sf : List β), (∀ x ∈ sl, f x ∈ sf) →
      keepFirst sf ((keepFirst sl l).map f) = keepFirst sf (l.map f) := by
  intro l
  induction l with
  | nil => intro sl sf hinv; simp [keepFirst]
  | cons x xs ih =>
    intro sl sf hinv
    simp only [keepFirst, List.map_cons]
    by_cases hx : x ∈ sl
    · rw [if_pos hx]
      have hfx : f x ∈ sf := hinv x hx
      rw [ih sl sf hinv]
      simp only [keepFirst, if_pos hfx]
    · rw [if_neg hx]
      simp only [List.map_cons, keepFirst]
      by_cases hfx : f x ∈ sf
      · rw [if_pos hfx, if_pos hfx]
        refine ih (x :: sl) sf ?_
        intro y hy
        rcases List.mem_cons.mp hy with rfl | hy
        · exact hfx
        · exact hinv y hy
      · rw [if_neg hfx, if_neg hfx]
        congr 1
        refine ih (x :: sl) (f x :: sf) ?_
        intro y hy
        rcases List.mem_cons.mp hy with rfl | hy
        · exact List.mem_cons_self _ _
        · exact List.mem_cons_of_mem _ (hinv y hy)

theorem keepFirst_append {α : Type} [DecidableEq α] :
    ∀ (l1 l2 s : List α),
      keepFirst s (l1 ++ l2) = keepFirst s l1 ++ keepFirst (l1 ++ s) l2 := by
  intro l1
  induction l1 with
  | nil => intro l2 s; simp [keepFirst]
  | cons x xs ih =>
    intro l2 s
    simp only [List.cons_append, keepFirst, List.append_eq]
    by_cases hx : x ∈ s
    · rw [if_pos hx, if_pos hx, ih]
      congr 1
      refine keepFirst_congr _ _ ?_ l2
      intro a
      simp only [List.mem_append, List.mem_cons]
      constructor
      · rintro (ha | ha)
        · exact Or.inr (Or.inl ha)
        · exact Or.inr (Or.inr ha)
      · rintro (rfl | ha | ha)
        · exact Or.inr hx
        · exact Or.inl ha
        · exact Or.inr ha
    · rw [if_neg hx, if_neg hx, ih]
      simp only [List.cons_append]
      congr 2
      refine keepFirst_congr _ _ ?_ l2
      intro a
      simp only [List.mem_append, List.mem_cons]
      tauto

theorem dedupFirst_map_dedup {α β : Type} [DecidableEq α] [DecidableEq β]
    (f : α → β) (l : List α) (c : List β) :
    dedupFirst ((dedupFirst l).map f ++ c) = dedupFirst (l.map f ++ c) := by
  simp only [dedupFirst]
  rw [keepFirst_append, keepFirst_append]
  have h1 : keepFirst [] ((keepFirst [] l).map f) = keepFirst [] (l.map f) :=
    keepFirst_map f l [] [] (by intro x hx; simp at hx)
  rw [h1]
  congr 1
  refine keepFirst_congr _ _ ?_ c
  intro a
  simp only [List.append_nil, List.mem_map]
  constructor
  · rintro ⟨x, hx, rfl⟩
    exact ⟨x, ((mem_keepFirst x [] l).mp hx).1, rfl⟩
  · rintro ⟨x, hx, rfl⟩
    exact ⟨x, (mem_keepFirst x [] l).mpr ⟨hx, by simp⟩, rfl⟩

theorem dictFold_eq (g : ℕ → String) :
    ∀ (l seen : List ℕ),
      l.foldl (fun d w => dictInsert d w (g w)) (seen.map (fun w => (w, g w))) =
        (seen ++ keepFirst seen l).map (fun w => (w, g w)) := by
  intro l
  induction l with
  | nil => intro seen; simp [keepFirst]
  | cons x xs ih =>
    intro seen
    rw [List.foldl_cons]
    by_cases hx : x ∈ seen
    · have hany : (seen.map (fun w => (w, g w))).any (fun p => p.1 == x) = true := by
        rw [List.any_eq_true]
        exact ⟨(x, g x), List.mem_map_of_mem _ hx, by simp⟩
      have hstep : dictInsert (seen.map (fun w => (w, g w))) x (g x) =
          seen.map (fun w => (w, g w)) := by
        rw [dictInsert, if_pos hany, List.map_map]
        refine List.map_congr_left ?_
        intro w hw
        simp only [Function.comp]
        by_cases hwx : w = x
        · subst hwx; simp
        · simp [hwx]
      rw [hstep, ih seen]
      simp only [keepFirst, if_pos hx]
    · have hany : (seen.map (fun w => (w, g w))).any (fun p => p.1 == x) = false := by
        rw [List.any_eq_false]
        rintro ⟨a, b⟩ hab
        simp only [List.mem_map] at hab
        obtain ⟨w, hw, heq⟩ := hab
        have ha : a = w := by
          have := congrArg Prod.fst heq
          simp at this
          omega
        subst ha
        simp only [beq_iff_eq]
        intro hc
        exact hx (hc ▸ hw)
      have hstep : dictInsert (seen.map (fun w => (w, g w))) x (g x) =
          (seen ++ [x]).map (fun w => (w, g w)) := by
        rw [dictInsert, if_neg (by rw [hany]; simp)]
        simp
      rw [hstep, ih (seen ++ [x])]
      simp only [keepFirst, if_neg hx]
      have hcongr : keepFirst (seen ++ [x]) xs = keepFirst (x :: seen) xs := by
        refine keepFirst_congr _ _ ?_ xs
        intro a
        simp only [List.mem_append, List.mem_cons]
        tauto
      rw [hcongr]
      simp

theorem width_dirs_eq (widths : List ℕ) :
    width_dirs widths = (dedupFirst widths).map (fun w => (w, toString w)) := by
  have := dictFold_eq (fun w => toString w) widths []
  simpa [width_dirs, dedupFirst] using this

theorem width_dirs_dedup (widths : List ℕ) :
    width_dirs widths = width_dirs (dedupFirst widths) := by
  rw [width_dirs_eq, width_dirs_eq, dedupFirst_idem]

theorem pyNewHeight_nonneg (hgt wid tw : ℕ) : 0 ≤ pyNewHeight hgt wid tw := by
  have h1 : (0:ℚ) ≤ pyfloat hgt := round64_nonneg _ (by positivity)
  have h2 : (0:ℚ) ≤ pydiv tw wid := by
    apply round64_nonneg
    rw [Rat.mkRat_eq_div]
    positivity
  have h3 : (0:ℚ) ≤ pymulIntFloat hgt (pydiv tw wid) := by
    apply round64_nonneg
    rw [qmul_eq]
    exact mul_nonneg h1 h2
  rw [pyNewHeight, pytrunc, if_neg (not_lt.mpr h3)]
  exact Int.le_floor.mpr (by exact_mod_cast h3)

theorem resize_dims_snd_int (wid hgt tw : ℕ) (h : tw < wid) :
    ((resize_dims wid hgt tw).2 : ℤ) = pyNewHeight hgt wid tw := by
  rw [resize_dims, if_neg (by omega)]
  exact Int.toNat_of_nonneg (pyNewHeight_nonneg hgt wid tw)

theorem processImage_snd (fs : String → Option Img) (saveOk : String → Bool)
    (wdirs : List (ℕ × String)) (f : FileEntry) :
    (processImage fs saveOk wdirs f).2 = if origOk fs saveOk f then 1 else 0 := by
  rcases f with ⟨nm, _ | im⟩
  · rfl
  · rfl

theorem runConv_successes_eq (widths : List ℕ) (files : List FileEntry)
    (saveOk : String → Bool) :
    (runConv widths files saveOk).successes =
      (files.filter (fun f => origOk (fsOf files) saveOk f)).length := by
  show ((files.map (processImage (fsOf files) saveOk (width_dirs widths))).map Prod.snd).sum = _
  have key : ∀ l : List FileEntry,
      ((l.map (processImage (fsOf files) saveOk (width_dirs widths))).map Prod.snd).sum =
        (l.filter (fun f => origOk (fsOf files) saveOk f)).length := by
    intro l
    induction l with
    | nil => simp
    | cons f fs2 ih =>
      simp only [List.map_cons, List.sum_cons, ih, processImage_snd, List.filter_cons]
      split_ifs <;> simp <;> omega
  exact key files

theorem convert_to_webp_ok (fs : String → Option Img) (saveOk : Bool) (inp : PySrc) :
    ∃ r, convert_to_webp fs saveOk inp = Except.ok r := by
  cases h : convert_body fs saveOk inp with
  | error e => exact ⟨(false, none), by simp [convert_to_webp, h]⟩
  | ok v => exact ⟨(true, some v), by simp [convert_to_webp, h]⟩

/-! ### Claim theorems -/

/-- C1 (code bug): on the spec's scenario — a source folder with one
readable 2000×1000 JPEG, widths 320 640 960, and every external `save`
succeeding — the run writes no output file at all and the manifest reports
`Images processed: 1` but `Successful conversions: 0`.  The cause: `main`
passes in-memory PIL `Image` objects to `convert_to_webp`, whose
`Image.open(input_path)` call raises `AttributeError` (caught, returning
`False`) on every single call, so the claimed four files and
`Successful conversions: 1` never happen. -/
theorem C1_run_writes_nothing :
    main true true [⟨("img.jpg"), some ⟨PMode.RGB, 2000, 1000⟩⟩] [320, 640, 960]
        (fun _ => true) =
      MainOutcome.finished
        (runConv [320, 640, 960] [⟨("img.jpg"), some ⟨PMode.RGB, 2000, 1000⟩⟩]
          (fun _ => true)) ∧
    (runConv [320, 640, 960] [⟨("img.jpg"), some ⟨PMode.RGB, 2000, 1000⟩⟩]
        (fun _ => true)).outputs = [] ∧
    (runConv [320, 640, 960] [⟨("img.jpg"), some ⟨PMode.RGB, 2000, 1000⟩⟩]
        (fun _ => true)).successes = 0 ∧
    (runConv [320, 640, 960] [⟨("img.jpg"), some ⟨PMode.RGB, 2000, 1000⟩⟩]
        (fun _ => true)).manifest.processed = 1 ∧
    (runConv [320, 640, 960] [⟨("img.jpg"), some ⟨PMode.RGB, 2000, 1000⟩⟩]
        (fun _ => true)).manifest.successes = 0 := by
  decide

/-- C2 counterexample: the claim says the resized height is exactly
`floor(sourceHeight * targetWidth / sourceWidth)`, but for a 49×49 source
and target width 1 the code computes `int(49 * (1/49)) = 0` in binary64
(`49 * (1/49) = 0.9999999999999999`), while the exact floor is `1`. -/
theorem C2_resize_floor_counterexample :
    resize_dims 49 49 1 = (1, 0) ∧ ⌊((49 * 1 : ℕ) : ℚ) / ((49 : ℕ) : ℚ)⌋ = 1 := by
  constructor
  · decide
  · norm_num

/-- C2 (amended): `resize_image` returns the image unchanged when
`width ≤ targetWidth`, never upscales, and otherwise returns width exactly
`targetWidth` with height `int(height * (targetWidth / width))` computed in
binary64 floating point — which is within one of
`floor(sourceHeight * targetWidth / sourceWidth)` (and usually equal to it),
but not always equal (see the counterexample). -/
theorem C2_resize_amended (wid hgt tw : ℕ) :
    (wid ≤ tw → resize_dims wid hgt tw = (wid, hgt)) ∧
    (resize_dims wid hgt tw).1 ≤ wid ∧
    (tw < wid → (resize_dims wid hgt tw).1 = tw ∧
      ((resize_dims wid hgt tw).2 : ℤ) = pyNewHeight hgt wid tw) ∧
    (0 < tw → tw < wid → wid ≤ 2 ^ 31 → hgt ≤ 2 ^ 31 → 0 < hgt →
      ⌊((hgt * tw : ℕ) : ℚ) / wid⌋ - 1 ≤ ((resize_dims wid hgt tw).2 : ℤ) ∧
      ((resize_dims wid hgt tw).2 : ℤ) ≤ ⌊((hgt * tw : ℕ) : ℚ) / wid⌋ + 1) := by
  refine ⟨?_, ?_, ?_, ?_⟩
  · intro h
    rw [resize_dims, if_pos h]
  · rw [resize_dims]
    split_ifs with h
    · exact le_refl wid
    · simp only
      omega
  · intro h
    refine ⟨by rw [resize_dims, if_neg (by omega)], resize_dims_snd_int wid hgt tw h⟩
  · intro h1 h2 h3 h4 h5
    have hb := (pyNewHeight_bounds hgt wid tw h1 h2 h3 h4 h5).1
    rw [resize_dims_snd_int wid hgt tw h2]
    exact hb

theorem C2_resize_amended_witness :
    ⌊((1000 * 320 : ℕ) : ℚ) / ((2000 : ℕ) : ℚ)⌋ - 1 ≤ ((resize_dims 2000 1000 320).2 : ℤ) ∧
    ((resize_dims 2000 1000 320).2 : ℤ) ≤ ⌊((1000 * 320 : ℕ) : ℚ) / ((2000 : ℕ) : ℚ)⌋ + 1 :=
  (C2_resize_amended 2000 1000 320).2.2.2 (by norm_num) (by norm_num) (by norm_num)
    (by norm_num) (by norm_num)

/-- C10 counterexample: for a 2×1 source image and target width 1 the resize
step computes height `int(1 * (1/2)) = 0` — and even the claim's own exact
formula gives `floor(1 * 1 / 2) = 0` — so the resize call does request a
zero-height image. -/
theorem C10_zero_height_counterexample :
    resize_dims 2 1 1 = (1, 0) ∧ pyNewHeight 1 2 1 = 0 ∧
      ⌊((1 * 1 : ℕ) : ℚ) / ((2 : ℕ) : ℚ)⌋ = 0 := by
  refine ⟨by decide, by decide, by norm_num⟩

/-- C10 (amended): for dimensions up to `2 ^ 31`, the computed height is at
least `1` under the additional hypothesis `sourceWidth < sourceHeight *
targetWidth` (which the original claim lacked; for
`sourceHeight * targetWidth ≤ sourceWidth` the height can be `0`, see the
counterexample). -/
theorem C10_height_positive_amended (wid hgt tw : ℕ)
    (h1 : 0 < tw) (h2 : tw < wid) (h3 : wid ≤ 2 ^ 31) (h4 : hgt ≤ 2 ^ 31)
    (h5 : 0 < hgt) (h6 : wid < hgt * tw) :
    1 ≤ (resize_dims wid hgt tw).2 := by
  have hb := (pyNewHeight_bounds hgt wid tw h1 h2 h3 h4 h5).2 h6
  have hs := resize_dims_snd_int wid hgt tw h2
  omega

theorem C10_height_positive_amended_witness : 1 ≤ (resize_dims 2000 1000 320).2 :=
  C10_height_positive_amended 2000 1000 320 (by norm_num) (by norm_num) (by norm_num)
    (by norm_num) (by norm_num) (by norm_num)

/-- C4 (confirmed): `convert_to_webp` never lets an exception escape — its
whole body is inside `try ... except Exception`, so every call returns a
value (`False` on any opening or encoding error) — and the run processes
every enumerated image, each contributing independently to the success
count (a failing image only contributes 0; it does not abort the loop). -/
theorem C4_convert_never_raises :
    (∀ (fs : String → Option Img) (saveOk : Bool) (inp : PySrc),
      ∃ r, convert_to_webp fs saveOk inp = Except.ok r) ∧
    (∀ (widths : List ℕ) (files : List FileEntry) (saveOk : String → Bool),
      (runConv widths files saveOk).manifest.processed = files.length ∧
      (runConv widths files saveOk).successes =
        (files.map (fun f =>
          (processImage (fsOf files) saveOk (width_dirs widths) f).2)).sum) := by
  refine ⟨convert_to_webp_ok, ?_⟩
  intro widths files saveOk
  refine ⟨rfl, ?_⟩
  show ((files.map (processImage (fsOf files) saveOk (width_dirs widths))).map Prod.snd).sum = _
  rw [List.map_map]
  rfl

/-- C5 (confirmed): the successful-conversions count equals the number of
files whose original-size `convert_to_webp` call returned `True`, and it is
unchanged if the outcomes of the resized-variant saves change (only the
original-size path's save outcome can matter). -/
theorem C5_success_from_originalsize :
    (∀ (widths : List ℕ) (files : List FileEntry) (saveOk : String → Bool),
      (runConv widths files saveOk).successes =
        (files.filter (fun f => origOk (fsOf files) saveOk f)).length) ∧
    (∀ (widths : List ℕ) (files : List FileEntry) (saveOk saveOk2 : String → Bool),
      (∀ f ∈ files, saveOk (origPath f) = saveOk2 (origPath f)) →
      (runConv widths files saveOk).successes = (runConv widths files saveOk2).successes) := by
  refine ⟨runConv_successes_eq, ?_⟩
  intro widths files so so2 hagree
  rw [runConv_successes_eq, runConv_successes_eq]
  congr 1

theorem C5_success_from_originalsize_witness :
    (runConv [320] [⟨("img.jpg"), some ⟨PMode.RGB, 2000, 1000⟩⟩] (fun _ => true)).successes =
      (runConv [320] [⟨("img.jpg"), some ⟨PMode.RGB, 2000, 1000⟩⟩]
        (fun s => s == ("originalsize/img.webp"))).successes :=
  C5_success_from_originalsize.2 [320] [⟨("img.jpg"), some ⟨PMode.RGB, 2000, 1000⟩⟩]
    (fun _ => true) (fun s => s == ("originalsize/img.webp")) (by decide)

/-- C6 (confirmed): `main` exits with code 1 — before any output directory
or file is created — exactly when the source folder is missing, is not a
directory, or contains no supported images; otherwise it completes the run
and returns normally (exit status 0). -/
theorem C6_validation_exit (fe dir : Bool) (listing : List FileEntry)
    (widths : List ℕ) (saveOk : String → Bool) :
    (main fe dir listing widths saveOk = MainOutcome.exited 1 [] [] ↔
      (fe = false ∨ dir = false ∨ get_image_files FileEntry.name listing = [])) ∧
    (main fe dir listing widths saveOk = MainOutcome.exited 1 [] [] ∨
      main fe dir listing widths saveOk =
        MainOutcome.finished (runConv widths (get_image_files FileEntry.name listing) saveOk)) := by
  cases fe
  · simp [main]
  · cases dir
    · simp [main]
    · by_cases hemp : (get_image_files FileEntry.name listing).isEmpty
      · have hnil : get_image_files FileEntry.name listing = [] :=
          List.isEmpty_iff.mp hemp
        simp [main, hemp, hnil]
      · have hnnil : get_image_files FileEntry.name listing ≠ [] := by
          intro hc
          rw [hc] at hemp
          exact hemp rfl
        simp [main, hemp, hnnil]

/-- C7 counterexample: a folder containing exactly `photo.Jpg` — whose
extension is a supported one up to case, as the spec's predicate confirms —
is enumerated as empty, because the code only globs the all-lowercase and
all-uppercase spellings of each extension. -/
theorem C7_mixed_case_counterexample :
    specCaseFold ("photo.Jpg") = true ∧ get_image_files id [("photo.Jpg")] = [] := by
  decide

/-- C7 (amended): enumeration selects exactly the files whose name ends in a
supported extension spelled either all-lowercase or all-uppercase
(`.jpg` or `.JPG`); mixed-case spellings such as `.Jpg` are not
enumerated. -/
theorem C7_enumeration_amended {α : Type} (nameOf : α → String) (files : List α) (f : α) :
    f ∈ get_image_files nameOf files ↔
      f ∈ files ∧ ∃ e ∈ SUPPORTED_FORMATS,
        (strEndsWith (nameOf f) e = true ∨ strEndsWith (nameOf f) (upStr e) = true) := by
  rw [get_image_files, mem_gatherImages]
  constructor
  · rintro ⟨e, he, hf, hor⟩
    exact ⟨hf, e, he, hor⟩
  · rintro ⟨hf, e, he, hor⟩
    exact ⟨e, he, hf, hor⟩

/-- C9 counterexample: a duplicated width list does not behave identically
to the deduplicated one — the manifest sorts `args.widths` with duplicates
kept, so `--widths 320 320` writes `320, 320` (and two `320/` directory
lines) where `--widths 320` writes `320`. -/
theorem C9_manifest_dup_counterexample :
    dedupFirst [320, 320] = [320] ∧
    (runConv [320, 320] [⟨("img.jpg"), some ⟨PMode.RGB, 2000, 1000⟩⟩]
        (fun _ => true)).manifest ≠
      (runConv [320] [⟨("img.jpg"), some ⟨PMode.RGB, 2000, 1000⟩⟩]
        (fun _ => true)).manifest := by
  decide

/-- C9 (amended): directory creation and per-image processing do behave
identically under duplicate widths — the width-to-directory dict is keyed by
the integer width, so each distinct width's directory is created once and
each image is encoded into it once — but the manifest content differs
(duplicates are kept in its sorted width list). -/
theorem C9_dedup_amended (widths : List ℕ) (files : List FileEntry)
    (saveOk : String → Bool) :
    width_dirs widths = width_dirs (dedupFirst widths) ∧
    (runConv widths files saveOk).dirs = (runConv (dedupFirst widths) files saveOk).dirs ∧
    (runConv widths files saveOk).outputs =
      (runConv (dedupFirst widths) files saveOk).outputs ∧
    (runConv widths files saveOk).successes =
      (runConv (dedupFirst widths) files saveOk).successes ∧
    (runConv widths files saveOk).manifest.processed =
      (runConv (dedupFirst widths) files saveOk).manifest.processed := by
  have hwd := width_dirs_dedup widths
  refine ⟨hwd, ?_, ?_, ?_, rfl⟩
  · show dedupFirst (widths.map toString ++ [("originalsize")]) =
      dedupFirst ((dedupFirst widths).map toString ++ [("originalsize")])
    exact (dedupFirst_map_dedup toString widths [("originalsize")]).symm
  · show ((files.map (processImage (fsOf files) saveOk (width_dirs widths))).map
      Prod.fst).flatten = _
    rw [hwd]
    rfl
  · show ((files.map (processImage (fsOf files) saveOk (width_dirs widths))).map
      Prod.snd).sum = _
    rw [hwd]
    rfl

/-- C3 counterexample: an LA image whose only pixel is fully transparent
black comes out of the normalisation as black, not white — the LA branch
passes `mask=None` to `paste` (the mask is only taken when
`img.mode == 'RGBA'`), so the alpha channel of an LA image is discarded
instead of being composited against the white background. -/
theorem C3_LA_alpha_counterexample :
    (normalizeForWebp ⟨PMode.LA, 1, 1, fun _ _ => [0, 0], fun _ => []⟩).px 0 0 = [0, 0, 0] ∧
    ([0, 0, 0] : List ℕ) ≠ [255, 255, 255] := by
  exact ⟨rfl, by decide⟩

/-- C3 (amended): the encode step always produces an RGB image of unchanged
size; RGBA images and palette images are composited onto a solid white
background (fully transparent pixels come out white, fully opaque pixels
keep their colour); but LA images are pasted *without* their alpha as mask,
so their alpha is ignored and "transparent" LA pixels keep their luminance
instead of becoming white; any other non-RGB mode is converted directly to
RGB. -/
theorem C3_normalize_amended (img : PImg) (x y : ℕ) :
    ((normalizeForWebp img).mode = PMode.RGB ∧
      (normalizeForWebp img).width = img.width ∧
      (normalizeForWebp img).height = img.height) ∧
    (img.mode = PMode.RGBA → ∀ r g b, img.px x y = [r, g, b, 0] →
      (normalizeForWebp img).px x y = [255, 255, 255]) ∧
    (img.mode = PMode.RGBA → ∀ r g b, r ≤ 255 → g ≤ 255 → b ≤ 255 →
      img.px x y = [r, g, b, 255] → (normalizeForWebp img).px x y = [r, g, b]) ∧
    (img.mode = PMode.P → ∀ i r g b, img.px x y = [i] → img.palette i = [r, g, b, 0] →
      (normalizeForWebp img).px x y = [255, 255, 255]) ∧
    (img.mode = PMode.LA → ∀ l a, img.px x y = [l, a] →
      (normalizeForWebp img).px x y = [l, l, l]) ∧
    (img.mode = PMode.L → ∀ l, img.px x y = [l] →
      (normalizeForWebp img).px x y = [l, l, l]) ∧
    (img.mode = PMode.RGB → (normalizeForWebp img).px x y = img.px x y) := by
  rcases img with ⟨m, w, hh, px, pal⟩
  cases m with
  | RGB =>
    refine ⟨⟨rfl, rfl, rfl⟩, ?_, ?_, ?_, ?_, ?_, fun _ => rfl⟩ <;>
      (intro hc; simp at hc)
  | RGBA =>
    refine ⟨⟨rfl, rfl, rfl⟩, ?_, ?_, ?_, ?_, ?_, ?_⟩
    · intro _ r g b hpx
      replace hpx : px x y = [r, g, b, 0] := hpx
      simp [normalizeForWebp, pasteFull, splitLastBand, pilNewRGBWhite, rgbBands, hpx,
        blendBand_transparent]
    · intro _ r g b hr hg hb hpx
      replace hpx : px x y = [r, g, b, 255] := hpx
      simp [normalizeForWebp, pasteFull, splitLastBand, pilNewRGBWhite, rgbBands, hpx,
        blendBand_opaque, hr, hg, hb]
    · intro hc; simp at hc
    · intro hc; simp at hc
    · intro hc; simp at hc
    · intro hc; simp at hc
  | LA =>
    refine ⟨⟨rfl, rfl, rfl⟩, ?_, ?_, ?_, ?_, ?_, ?_⟩
    · intro hc; simp at hc
    · intro hc; simp at hc
    · intro hc; simp at hc
    · intro _ l a hpx
      replace hpx : px x y = [l, a] := hpx
      simp [normalizeForWebp, pasteFull, rgbBands, hpx]
    · intro hc; simp at hc
    · intro hc; simp at hc
  | P =>
    refine ⟨⟨rfl, rfl, rfl⟩, ?_, ?_, ?_, ?_, ?_, ?_⟩
    · intro hc; simp at hc
    · intro hc; simp at hc
    · intro _ i r g b hpx hpal
      replace hpx : px x y = [i] := hpx
      replace hpal : pal i = [r, g, b, 0] := hpal
      simp [normalizeForWebp, convertPtoRGBA, pasteFull, splitLastBand, pilNewRGBWhite,
        rgbBands, hpx, hpal, blendBand_transparent]
    · intro hc; simp at hc
    · intro hc; simp at hc
    · intro hc; simp at hc
  | L =>
    refine ⟨⟨rfl, rfl, rfl⟩, ?_, ?_, ?_, ?_, ?_, ?_⟩
    · intro hc; simp at hc
    · intro hc; simp at hc
    · intro hc; simp at hc
    · intro hc; simp at hc
    · intro _ l hpx
      replace hpx : px x y = [l] := hpx
      simp [normalizeForWebp, convertToRGB, rgbBands, hpx]
    · intro hc; simp at hc

theorem C3_normalize_amended_witness :
    (normalizeForWebp ⟨PMode.RGBA, 1, 1, fun _ _ => [10, 20, 30, 0], fun _ => []⟩).px 0 0 =
      [255, 255, 255] :=
  (C3_normalize_amended ⟨PMode.RGBA, 1, 1, fun _ _ => [10, 20, 30, 0], fun _ => []⟩ 0 0).2.1
    rfl 10 20 30 rfl

/-- C8 counterexample: when `image.width <= target_width` the function
executes `return image` — for a 100×100 image in a one-object heap and
target width 200 the returned reference is the input reference `0`, not a
distinct object, contradicting the claim that the returned image is always
distinct from the input. -/
theorem C8_same_object_counterexample :
    (resize_image_heap (fun _ _ _ _ _ => [])
      ⟨[⟨PMode.RGB, 100, 100, fun _ _ => [0, 0, 0], fun _ => [0, 0, 0, 0]⟩]⟩ 0 200).2 = 0 := by
  rfl

/-- C8 (amended): the resize step never mutates any existing heap object
(the input's pixel data, dimensions and mode are untouched); when
`targetWidth < image.width` it allocates and returns a fresh object distinct
from the input; but when `image.width ≤ targetWidth` it returns the very
same input object (not a distinct one), leaving the heap unchanged. -/
theorem C8_resize_identity_amended (lz : PImg → ℕ → ℕ → ℕ → ℕ → List ℕ)
    (h : PilHeap) (r : ℕ) (tw : ℕ) (hr : r < h.imgs.length) :
    ((resize_image_heap lz h r tw).1.imgs.take h.imgs.length = h.imgs) ∧
    (∀ r2, r2 < h.imgs.length →
      heapGet (resize_image_heap lz h r tw).1 r2 = heapGet h r2) ∧
    (tw < (heapGet h r).width →
      (resize_image_heap lz h r tw).2 = h.imgs.length ∧
      (resize_image_heap lz h r tw).2 ≠ r) ∧
    ((heapGet h r).width ≤ tw → resize_image_heap lz h r tw = (h, r)) := by
  by_cases hc : (heapGet h r).width ≤ tw
  · have hres : resize_image_heap lz h r tw = (h, r) := by
      rw [resize_image_heap, if_pos hc]
    rw [hres]
    exact ⟨List.take_length h.imgs, fun r2 _ => rfl, fun hlt => absurd hlt (by omega),
      fun _ => rfl⟩
  · have hres : resize_image_heap lz h r tw =
        (⟨h.imgs ++ [⟨(heapGet h r).mode, tw,
          (pyNewHeight (heapGet h r).height (heapGet h r).width tw).toNat,
          lz (heapGet h r) tw ((pyNewHeight (heapGet h r).height (heapGet h r).width tw).toNat),
          (heapGet h r).palette⟩]⟩, h.imgs.length) := by
      rw [resize_image_heap, if_neg hc]
    rw [hres]
    refine ⟨?_, ?_, ?_, ?_⟩
    · exact List.take_left h.imgs _
    · intro r2 hr2
      simp only [heapGet]
      rw [List.getD_append _ _ _ _ hr2]
    · intro _
      exact ⟨rfl, by omega⟩
    · intro hle
      exact absurd hle hc

theorem C8_resize_identity_amended_witness :
    (resize_image_heap (fun _ _ _ _ _ => [])
        ⟨[⟨PMode.RGB, 2000, 1000, fun _ _ => [0, 0, 0], fun _ => [0, 0, 0, 0]⟩]⟩ 0 320).2 = 1 ∧
    (resize_image_heap (fun _ _ _ _ _ => [])
        ⟨[⟨PMode.RGB, 2000, 1000, fun _ _ => [0, 0, 0], fun _ => [0, 0, 0, 0]⟩]⟩ 0 320).2 ≠ 0 :=
  ((C8_resize_identity_amended (fun _ _ _ _ _ => [])
      ⟨[⟨PMode.RGB, 2000, 1000, fun _ _ => [0, 0, 0], fun _ => [0, 0, 0, 0]⟩]⟩ 0 320
      (by decide)).2.2.1 (by decide))

end SrcSet
